import Mathlib

/-!
Verification of the `who-calls` static caller-tree explorer
(`who_calls/who_calls.py`).

The Python module is shallowly embedded as executable Lean definitions:

* A parsed Python file is a `PyFile`; its syntax tree is a `PyStmt`
  (sequencing, `class` definitions, `def`/`async def` definitions, and
  arbitrary other statements, each carrying the call expressions that
  `ast.walk` would find directly at that level).
* `collectStmt` embeds the `Collector` AST visitor (qualified-name
  discovery with a class-nesting stack).
* `build_call_graph` embeds the two-pass graph build: definition
  collection and then heuristic call resolution (`calleeCandidates`,
  `processCall` for lines 92-119 of the source).
* `CallGraph.filtered` and `CallGraph.label` embed the store operations.
* `print_caller_tree` embeds target resolution, ancestor computation
  (`nx.has_path` becomes an iterated backward closure `backClosure`),
  root detection and the recursive `walk` renderer.  Python's unbounded
  recursion is fuel-indexed: `walkF` returns `none` when the nesting
  depth exceeds the fuel, so genuine non-termination of the source shows
  up as `walkF ... fuel ... = none` for every fuel.
* `sys.exit` at the query boundary is modelled by the `PrintResult` sum
  type (`exitNotFound` / `exitAmbiguous` carry the data the program
  prints before terminating with a non-zero status).

Python dictionaries become association lists with insertion order and
in-place overwrite (`dictUpsert`), matching `dict` semantics; the
`networkx.DiGraph` node and edge containers become insertion-ordered
duplicate-free lists (`nodeInsert`, `addEdge`).
-/

/-!
Kernel-computable embeddings of the Python `str` operations the module
uses (`"x".join`, `split`, `endswith`, `startswith`, `<`).  They are
defined by structural recursion over the character list of the string so
that every definition in this file evaluates inside the kernel.
-/

/-- Python `sep.join(parts)`. -/
def joinSep (sep : String) : List String → String
  | [] => ""
  | [x] => x
  | x :: y :: rest => x ++ sep ++ joinSep sep (y :: rest)

/-- Split a character list at every occurrence of `sep`
(Python `str.split` on a one-character separator). -/
def splitChars (sep : Char) : List Char → List (List Char)
  | [] => [[]]
  | c :: rest =>
      match splitChars sep rest with
      | [] => [[]]
      | g :: gs => if c = sep then [] :: g :: gs else (c :: g) :: gs

/-- Python `s.split(".")`. -/
def splitDots (s : String) : List String :=
  (splitChars '.' s.data).map String.mk

/-- Python `s.endswith(p)`. -/
def strEndsWith (s p : String) : Bool :=
  p.data.isSuffixOf s.data

/-- Python `s.startswith(p)`. -/
def strStartsWith (s p : String) : Bool :=
  p.data.isPrefixOf s.data

/-- Lexicographic comparison of character lists by code point. -/
def ltChars : List Char → List Char → Bool
  | [], [] => false
  | [], _ :: _ => true
  | _ :: _, [] => false
  | a :: as, b :: bs => if a = b then ltChars as bs else decide (a < b)

/-- Python `s < t` on strings (code-point lexicographic order). -/
def strLtB (a b : String) : Bool :=
  ltChars a.data b.data

/-- One call expression found by `ast.walk` inside a function body,
classified the way `build_call_graph` classifies `n.func`:
a bare-name call `f(...)`, an attribute call `x.f(...)` (with the
receiver name if `n.func.value` is an `ast.Name`), or a call whose
callee is any other expression (which the resolver ignores). -/
inductive CallSite where
  | bare (id : String)
  | attr (recv : Option String) (a : String)
  | dynamic
deriving DecidableEq

/-- A Python statement tree, as far as `who_calls` looks at it:
`seq`/`nil` give statement sequencing, `classDef` and `funcDef` are the
named scopes tracked by the `Collector` (`async def` behaves exactly
like `def` there, so one constructor covers both), and `other` stands
for any other compound statement the generic visitor walks through.
Each level carries the call expressions occurring directly at it. -/
inductive PyStmt where
  | nil
  | seq (a b : PyStmt)
  | classDef (name : String) (calls : List CallSite) (body : PyStmt)
  | funcDef (name : String) (lineno : Nat) (calls : List CallSite) (body : PyStmt)
  | other (calls : List CallSite) (body : PyStmt)
deriving DecidableEq

/-- A file found by `root.rglob("*.py")`: its directory components
relative to the scan root, its stem (file name without the `.py`
suffix), and the result of `ast.parse` (`none` on `SyntaxError`). -/
structure PyFile where
  dirs : List String
  stem : String
  parse : Option PyStmt

/-- `path.relative_to(root).as_posix()` for a `PyFile`. -/
def PyFile.rel (f : PyFile) : String :=
  joinSep "/" (f.dirs ++ [f.stem ++ ".py"])

/-- `".".join(path.relative_to(root).with_suffix("").parts)`. -/
def PyFile.modName (f : PyFile) : String :=
  joinSep "." (f.dirs ++ [f.stem])

/-- One entry produced by `Collector._add`: the qualified name, the
stored AST node, the source path and the starting line. -/
structure DefEntry where
  q : String
  node : PyStmt
  path : String
  lineno : Nat

/-- The `Collector` visitor: walk a statement carrying the class-nesting
stack `cls`.  `visit_ClassDef` pushes the class name around the
recursive descent; `_add` (for `def` and `async def`) registers
`module + "." + ".".join(cls + [name])` and then keeps descending with
the *same* stack — the function's own name is not pushed. -/
def collectStmt (module path : String) (cls : List String) : PyStmt → List DefEntry
  | .nil => []
  | .seq a b => collectStmt module path cls a ++ collectStmt module path cls b
  | .classDef name _ body => collectStmt module path (cls ++ [name]) body
  | .funcDef name ln calls body =>
      { q := module ++ "." ++ joinSep "." (cls ++ [name]),
        node := .funcDef name ln calls body, path := path, lineno := ln }
        :: collectStmt module path cls body
  | .other _ body => collectStmt module path cls body

/-- All call expressions in a definition's subtree, as `ast.walk(fnode)`
finds them (including calls inside nested scopes). -/
def allCalls : PyStmt → List CallSite
  | .nil => []
  | .seq a b => allCalls a ++ allCalls b
  | .classDef _ calls body => calls ++ allCalls body
  | .funcDef _ _ calls body => calls ++ allCalls body
  | .other calls body => calls ++ allCalls body

/-- The definitions contributed by one file: excluded paths are skipped,
a `SyntaxError` (`parse = none`) skips the whole file, otherwise the
`Collector` runs on the tree. -/
def fileEntries (excl : String → Bool) (f : PyFile) : List DefEntry :=
  if excl f.rel then []
  else
    match f.parse with
    | none => []
    | some tree => collectStmt f.modName f.rel [] tree

/-- All definitions discovered under the root, in scan order. -/
def discoveredDefs (excl : String → Bool) (files : List PyFile) : List DefEntry :=
  files.flatMap (fileEntries excl)

/-- The keys of an association-list dictionary, in insertion order. -/
def dictKeys {α : Type} (m : List (String × α)) : List String :=
  m.map Prod.fst

/-- Python `dict` assignment `m[k] = v`: overwrite in place if the key
exists, otherwise append. -/
def dictUpsert {α : Type} (m : List (String × α)) (k : String) (v : α) :
    List (String × α) :=
  if k ∈ dictKeys m then m.map (fun p => if p.1 = k then (k, v) else p)
  else m ++ [(k, v)]

/-- Python `m.get(k, dflt)`. -/
def dictGet {α : Type} : List (String × α) → String → α → α
  | [], _, dflt => dflt
  | p :: rest, k, dflt => if p.1 = k then p.2 else dictGet rest k dflt

/-- `networkx` node insertion: duplicate-free, insertion-ordered. -/
def nodeInsert (ns : List String) (q : String) : List String :=
  if q ∈ ns then ns else ns ++ [q]

/-- `networkx.DiGraph.add_edge`: endpoints become nodes if missing and
the edge is stored once. -/
def addEdge (ne : List String × List (String × String)) (e : String × String) :
    List String × List (String × String) :=
  (nodeInsert (nodeInsert ne.1 e.1) e.2,
   if e ∈ ne.2 then ne.2 else ne.2 ++ [e])

/-- The mutable state of the collection pass of `build_call_graph`:
`defs`, `src_map`, `line_map`, and the graph's node container. -/
structure CollectState where
  defs : List (String × PyStmt)
  srcMap : List (String × String)
  lineMap : List (String × Nat)
  nodes : List String

/-- `Collector._add`: register one discovered definition everywhere. -/
def addDef (st : CollectState) (e : DefEntry) : CollectState :=
  { defs := dictUpsert st.defs e.q e.node,
    srcMap := dictUpsert st.srcMap e.q e.path,
    lineMap := dictUpsert st.lineMap e.q e.lineno,
    nodes := nodeInsert st.nodes e.q }

/-- `".".join(caller.split(".")[:-1])`: the caller's enclosing scope. -/
def dropLastSeg (s : String) : String :=
  joinSep "." ((splitDots s).dropLast)

/-- Lines 97-112 of the source: the candidate callees for one call
expression.  A bare name matches every definition whose qualified name
ends with `"." + name`; an attribute call on `self`/`cls` first tries
the exact same-class name `caller_prefix + "." + attr` and only falls
back to the trailing-name scan when that is absent.  (The source sets
`callee_candidates = [same_cls]` under the guard and then tests
`if not callee_candidates:`; as that singleton is never empty, the two
tests collapse to the single conditional written here.) -/
def calleeCandidates (defs : List (String × PyStmt)) (callerScope : String) :
    CallSite → List String
  | .bare f => (dictKeys defs).filter (fun d => strEndsWith d ("." ++ f))
  | .attr recv a =>
      if (recv = some "self" ∨ recv = some "cls") ∧
          (callerScope ++ "." ++ a) ∈ dictKeys defs
      then [callerScope ++ "." ++ a]
      else (dictKeys defs).filter (fun d => strEndsWith d ("." ++ a))
  | .dynamic => []

/-- Lines 113-117 of the source: commit the edges for one call
expression.  When candidates exist, keep the same-package subset
(qualified names starting with the caller's scope) if it is non-empty,
otherwise all candidates, and add one edge per survivor. -/
def processCall (defs : List (String × PyStmt)) (caller callerScope : String)
    (ne : List String × List (String × String)) (call : CallSite) :
    List String × List (String × String) :=
  let cands := calleeCandidates defs callerScope call
  if cands.isEmpty then ne
  else
    let samePkg := cands.filter (fun c => strStartsWith c callerScope)
    (if samePkg.isEmpty then cands else samePkg).foldl
      (fun acc callee => addEdge acc (caller, callee)) ne

/-- The call graph plus per-node source metadata, as in the `CallGraph`
dataclass. -/
structure CallGraph where
  nodes : List String
  edges : List (String × String)
  src : List (String × String)
  lines : List (String × Nat)
deriving DecidableEq

/-- `build_call_graph` from an already-enumerated definition list: the
collection fold followed by the edge-resolution pass over the complete
definitions map. -/
def buildFrom (entries : List DefEntry) : CallGraph :=
  let st := entries.foldl addDef ⟨[], [], [], []⟩
  let ne := st.defs.foldl
    (fun ne kv => (allCalls kv.2).foldl (processCall st.defs kv.1 (dropLastSeg kv.1)) ne)
    (st.nodes, ([] : List (String × String)))
  { nodes := ne.1, edges := ne.2, src := st.srcMap, lines := st.lineMap }

/-- `build_call_graph(root, rx_exclude)`: scan the files, collect every
definition, then resolve calls into edges. -/
def build_call_graph (excl : String → Bool) (files : List PyFile) : CallGraph :=
  buildFrom (discoveredDefs excl files)

/-- `CallGraph.filtered(pattern)`: keep only nodes matching the pattern
(the pattern is embedded as the predicate `pattern.search` induces),
edges with both endpoints surviving, and metadata for surviving keys. -/
def CallGraph.filtered (g : CallGraph) (p : String → Bool) : CallGraph :=
  let nodes := g.nodes.filter p
  { nodes := nodes,
    edges := g.edges.filter (fun e => decide (e.1 ∈ nodes) && decide (e.2 ∈ nodes)),
    src := g.src.filter (fun kv => decide (kv.1 ∈ nodes)),
    lines := g.lines.filter (fun kv => decide (kv.1 ∈ nodes)) }

/-- `node.split(".")[-1]`. -/
def lastSegment (s : String) : String :=
  (splitDots s).getLastD ""

/-- `CallGraph.label`: `f"{func} @ {file}:{line}"` with the `"?"` file
and line `1` fallbacks of `dict.get`. -/
def CallGraph.label (g : CallGraph) (node : String) : String :=
  lastSegment node ++ " @ " ++ dictGet g.src node "?" ++ ":" ++
    toString (dictGet g.lines node 1)

/-- Insert into a `<`-sorted list of strings (helper for `sortStrings`). -/
def insertSorted (x : String) : List String → List String
  | [] => [x]
  | y :: ys => if strLtB y x then y :: insertSorted x ys else x :: y :: ys

/-- Python `sorted` on strings (ascending code-point order). -/
def sortStrings (l : List String) : List String :=
  l.foldr insertSorted []

/-- `graph.successors(n)` read off the edge container. -/
def succs (edges : List (String × String)) (n : String) : List String :=
  (edges.filter (fun e => e.1 = n)).map Prod.snd

/-- `graph.predecessors(n)` read off the edge container. -/
def preds (edges : List (String × String)) (n : String) : List String :=
  (edges.filter (fun e => e.2 = n)).map Prod.fst

/-- One backward-reachability round: add the source of every edge whose
target is already reached. -/
def growPreds (edges : List (String × String)) (s : List String) : List String :=
  edges.foldl
    (fun acc e => if e.2 ∈ acc ∧ e.1 ∉ acc then acc ++ [e.1] else acc) s

/-- Iterated backward closure; with enough rounds this is exactly the
set of nodes with a directed path into the seed set. -/
def backClosure (edges : List (String × String)) : Nat → List String → List String
  | 0, s => s
  | n + 1, s => backClosure edges n (growPreds edges s)

/-- `{n for n in graph if nx.has_path(graph, n, tgt)}`: the ancestor set
of the target (each round of `growPreds` that is not yet at the fixed
point adds at least one node, so `edges.length + 1` rounds reach it). -/
def ancestorsOf (g : CallGraph) (tgt : String) : List String :=
  let cl := backClosure g.edges (g.edges.length + 1) [tgt]
  g.nodes.filter (fun n => decide (n ∈ cl))

/-- `sorted(n for n in anc if not any(p in anc for p in predecessors(n)))`. -/
def rootsOf (g : CallGraph) (anc : List String) : List String :=
  sortStrings (anc.filter
    (fun n => !((preds g.edges n).any (fun p => decide (p ∈ anc)))))

/-- `sorted(c for c in graph.successors(node) if c in anc)`: the
children the renderer descends into. -/
def kidsOf (g : CallGraph) (anc : List String) (node : String) : List String :=
  sortStrings ((succs g.edges node).filter (fun c => decide (c ∈ anc)))

/-- Sequence the outputs of a list of sub-walks; `none` (out of fuel
somewhere below) is contagious. -/
def seqOptions : List (Option (List String)) → Option (List String)
  | [] => some []
  | none :: _ => none
  | some l :: rest =>
      match seqOptions rest with
      | none => none
      | some ls => some (l ++ ls)

/-- The recursive `walk` of `print_caller_tree`, producing the printed
lines.  The Python function recurses with no bound; here `fuel` bounds
the recursion depth and `none` reports that the bound was hit, so
`walkF ... fuel ... = none` for every `fuel` exhibits an infinite
descent of the source program. -/
def walkF (g : CallGraph) (anc : List String) :
    Nat → String → String → Bool → Option (List String)
  | 0, _, _, _ => none
  | Nat.succ fuel, node, pre, last =>
      match seqOptions (((kidsOf g anc node).enum).map (fun ik =>
          walkF g anc fuel ik.2
            (pre ++ (if last then "    " else "│   "))
            (ik.1 == (kidsOf g anc node).length - 1))) with
      | none => none
      | some ls =>
          some ((pre ++ (if last then "└── " else "├── ") ++ g.label node) :: ls)

/-- `for i, r in enumerate(roots): walk(r, "", i == len(roots) - 1)`. -/
def renderRoots (g : CallGraph) (anc : List String) (roots : List String)
    (fuel : Nat) : Option (List String) :=
  seqOptions ((roots.enum).map (fun ir =>
    walkF g anc fuel ir.2 "" (ir.1 == roots.length - 1)))

/-- `[n for n in graph if n.endswith("." + target) or n == target]`. -/
def targetMatches (g : CallGraph) (target : String) : List String :=
  g.nodes.filter (fun n => strEndsWith n ("." ++ target) || n == target)

/-- The observable outcome of `print_caller_tree`: `sys.exit` with the
not-found message naming the target, `sys.exit(1)` after printing the
ambiguous-match list, the printed tree on success, or `outOfFuel` when
the embedded recursion exceeds every bound (the source recurses without
bound there). -/
inductive PrintResult where
  | exitNotFound (target : String)
  | exitAmbiguous (ms : List String)
  | output (ls : List String)
  | outOfFuel
deriving DecidableEq

/-- `print_caller_tree(cgraph, target)`: resolve the target against the
node set, exit for zero or several matches, otherwise compute ancestors
and roots and render the tree. -/
def print_caller_tree (g : CallGraph) (target : String) (fuel : Nat) :
    PrintResult :=
  match targetMatches g target with
  | [] => .exitNotFound target
  | [tgt] =>
      match renderRoots g (ancestorsOf g tgt) (rootsOf g (ancestorsOf g tgt)) fuel with
      | none => .outOfFuel
      | some ls => .output ls
  | ms => .exitAmbiguous ms

/-!
Concrete programs used to evaluate the embedding at specific inputs.
-/

/-- A module `m.py` with `def c(): a()`, `def a(): b()`, `def b(): a()`:
a mutually recursive pair `a`/`b` reached from the acyclic entry `c`. -/
def cycFile : PyFile :=
  { dirs := [], stem := "m",
    parse := some (.seq (.funcDef "c" 1 [.bare "a"] .nil)
                  (.seq (.funcDef "a" 4 [.bare "b"] .nil)
                  (.seq (.funcDef "b" 7 [.bare "a"] .nil) .nil))) }

/-- The call graph of `cycFile`: edges `m.c → m.a`, `m.a → m.b`,
`m.b → m.a`. -/
def cycG : CallGraph :=
  build_call_graph (fun _ => false) [cycFile]

/-- The ancestor set of `m.b` in `cycG` (all three functions). -/
def cycAnc : List String :=
  ancestorsOf cycG "m.b"

/-- A module `m.py` with `def outer(): def inner(): ...`:
a function nested in the body of another function. -/
def nestFile : PyFile :=
  { dirs := [], stem := "m",
    parse := some (.funcDef "outer" 1 []
      (.seq (.funcDef "inner" 2 [] .nil) .nil)) }

/-- A module `mod.py` with `def a(): b()` and `def b(): pass`. -/
def abFile : PyFile :=
  { dirs := [], stem := "mod",
    parse := some (.seq (.funcDef "a" 2 [.bare "b"] .nil)
                        (.funcDef "b" 6 [] .nil)) }

/-- The call graph of `abFile`. -/
def abG : CallGraph :=
  build_call_graph (fun _ => false) [abFile]

/-- A file whose text fails `ast.parse`. -/
def brokenFile : PyFile :=
  { dirs := [], stem := "broken", parse := none }

/-- The lockstep invariant of the collection pass: `defs`, `src_map`,
`line_map` and the node container always hold exactly the same keys in
the same order, because `Collector._add` writes all four together. -/
def lockstep (st : CollectState) : Prop :=
  dictKeys st.defs = st.nodes ∧ dictKeys st.srcMap = st.nodes ∧
    dictKeys st.lineMap = st.nodes

/-!  Helper lemmas about the container embeddings.  -/

theorem mem_nodeInsert {ns : List String} {q x : String} :
    x ∈ nodeInsert ns q ↔ x ∈ ns ∨ x = q := by
  unfold nodeInsert
  split
  · next h =>
    constructor
    · exact Or.inl
    · rintro (hx | rfl)
      · exact hx
      · exact h
  · simp

theorem nodeInsert_of_mem {ns : List String} {q : String} (h : q ∈ ns) :
    nodeInsert ns q = ns := by
  simp [nodeInsert, h]

theorem mem_addEdge {ne : List String × List (String × String)}
    {e x : String × String} :
    x ∈ (addEdge ne e).2 ↔ x ∈ ne.2 ∨ x = e := by
  unfold addEdge
  dsimp only
  split
  · next h =>
    constructor
    · exact Or.inl
    · rintro (hx | rfl)
      · exact hx
      · exact h
  · simp

theorem addEdge_nodes_of_mem {ne : List String × List (String × String)}
    {e : String × String} (h1 : e.1 ∈ ne.1) (h2 : e.2 ∈ ne.1) :
    (addEdge ne e).1 = ne.1 := by
  simp [addEdge, nodeInsert_of_mem h1, nodeInsert_of_mem h2]

theorem dictKeys_upsert {α : Type} (m : List (String × α)) (k : String) (v : α) :
    dictKeys (dictUpsert m k v)
      = if k ∈ dictKeys m then dictKeys m else dictKeys m ++ [k] := by
  unfold dictUpsert
  split
  · next h =>
    simp only [if_pos h, dictKeys, List.map_map]
    apply List.map_congr_left
    intro p _
    by_cases hp : p.1 = k
    · simp [hp]
    · simp [hp]
  · next h =>
    simp [if_neg h, dictKeys]

theorem dictGet_of_not_mem {α : Type} {m : List (String × α)} {k : String}
    (h : k ∉ dictKeys m) (d : α) : dictGet m k d = d := by
  induction m with
  | nil => rfl
  | cons p rest ih =>
      simp only [dictKeys, List.map_cons, List.mem_cons, not_or] at h
      have hp : p.1 ≠ k := fun hpk => h.1 hpk.symm
      simp only [dictGet, if_neg hp]
      exact ih h.2

theorem dictGet_mem {α : Type} {m : List (String × α)} {k : String}
    (h : k ∈ dictKeys m) (d : α) :
    ∃ v, (k, v) ∈ m ∧ dictGet m k d = v := by
  induction m with
  | nil => simp [dictKeys] at h
  | cons p rest ih =>
      by_cases hp : p.1 = k
      · exact ⟨p.2, by simp [← hp], by simp [dictGet, hp]⟩
      · simp only [dictKeys, List.map_cons, List.mem_cons] at h
        rcases h with h | h
        · exact absurd h.symm hp
        · obtain ⟨v, hv, hg⟩ := ih h
          exact ⟨v, List.mem_cons_of_mem _ hv, by simp [dictGet, hp, hg]⟩

theorem mem_foldl_addEdge (caller : String) (l : List String)
    (ne : List String × List (String × String)) (x : String × String) :
    x ∈ (l.foldl (fun acc callee => addEdge acc (caller, callee)) ne).2 ↔
      x ∈ ne.2 ∨ (x.1 = caller ∧ x.2 ∈ l) := by
  induction l generalizing ne with
  | nil => simp
  | cons c cs ih =>
      simp only [List.foldl_cons, ih, mem_addEdge, List.mem_cons]
      constructor
      · rintro ((hx | rfl) | ⟨h1, h2⟩)
        · exact Or.inl hx
        · exact Or.inr ⟨rfl, Or.inl rfl⟩
        · exact Or.inr ⟨h1, Or.inr h2⟩
      · rintro (hx | ⟨h1, (h2 | h2)⟩)
        · exact Or.inl (Or.inl hx)
        · refine Or.inl (Or.inr ?_)
          cases x
          simp only at h1 h2
          rw [h1, h2]
        · exact Or.inr ⟨h1, h2⟩

theorem foldl_addEdge_nodes (caller : String) (l : List String)
    (ne : List String × List (String × String))
    (hc : caller ∈ ne.1) (hl : ∀ c ∈ l, c ∈ ne.1) :
    (l.foldl (fun acc callee => addEdge acc (caller, callee)) ne).1 = ne.1 := by
  induction l generalizing ne with
  | nil => rfl
  | cons c cs ih =>
      simp only [List.foldl_cons]
      have hn : (addEdge ne (caller, c)).1 = ne.1 :=
        addEdge_nodes_of_mem hc (hl c (List.mem_cons_self c cs))
      have := ih (addEdge ne (caller, c))
      rw [hn] at this
      exact this hc (fun d hd => hl d (List.mem_cons_of_mem c hd))

theorem calleeCandidates_subset (defs : List (String × PyStmt))
    (scope : String) (call : CallSite) (x : String)
    (hx : x ∈ calleeCandidates defs scope call) : x ∈ dictKeys defs := by
  cases call with
  | bare f => exact List.mem_of_mem_filter hx
  | attr recv a =>
      simp only [calleeCandidates] at hx
      split at hx
      · next hg =>
        simp only [List.mem_singleton] at hx
        subst hx
        exact hg.2
      · exact List.mem_of_mem_filter hx
  | dynamic => simp [calleeCandidates] at hx

theorem processCall_edges (defs : List (String × PyStmt))
    (caller scope : String) (ne : List String × List (String × String))
    (call : CallSite) (x : String × String) :
    x ∈ (processCall defs caller scope ne call).2 ↔
      x ∈ ne.2 ∨ (x.1 = caller ∧
        x.2 ∈ (let cands := calleeCandidates defs scope call
               let samePkg := cands.filter (fun c => strStartsWith c scope)
               if cands.isEmpty then []
               else if samePkg.isEmpty then cands else samePkg)) := by
  unfold processCall
  dsimp only
  split
  · next h => simp [h]
  · next h => simp [h, mem_foldl_addEdge]

theorem processCall_nodes (defs : List (String × PyStmt))
    (caller scope : String) (ne : List String × List (String × String))
    (call : CallSite) (hc : caller ∈ ne.1)
    (hk : ∀ d ∈ dictKeys defs, d ∈ ne.1) :
    (processCall defs caller scope ne call).1 = ne.1 := by
  unfold processCall
  dsimp only
  split
  · rfl
  · apply foldl_addEdge_nodes _ _ _ hc
    intro c hcm
    apply hk
    split at hcm
    · exact calleeCandidates_subset defs scope call c hcm
    · exact calleeCandidates_subset defs scope call c (List.mem_of_mem_filter hcm)

theorem addDef_lockstep {st : CollectState} (e : DefEntry)
    (h : lockstep st) : lockstep (addDef st e) := by
  obtain ⟨h1, h2, h3⟩ := h
  unfold lockstep addDef nodeInsert
  dsimp only
  rw [dictKeys_upsert, dictKeys_upsert, dictKeys_upsert, h1, h2, h3]
  by_cases hq : e.q ∈ st.nodes
  · simp [hq]
  · simp [hq]

theorem foldl_addDef_lockstep (es : List DefEntry) {st : CollectState}
    (h : lockstep st) : lockstep (es.foldl addDef st) := by
  induction es generalizing st with
  | nil => exact h
  | cons e es ih => exact ih (addDef_lockstep e h)

theorem mem_foldl_addDef_nodes (es : List DefEntry) (st : CollectState)
    (x : String) :
    x ∈ (es.foldl addDef st).nodes ↔ x ∈ st.nodes ∨ x ∈ es.map DefEntry.q := by
  induction es generalizing st with
  | nil => simp
  | cons e es ih =>
      simp only [List.foldl_cons, ih, List.map_cons, List.mem_cons]
      have : (addDef st e).nodes = nodeInsert st.nodes e.q := rfl
      rw [this]
      simp only [mem_nodeInsert]
      tauto

theorem foldl_processCall_nodes (defs : List (String × PyStmt))
    (caller scope : String) (calls : List CallSite)
    (ne : List String × List (String × String)) (hc : caller ∈ ne.1)
    (hk : ∀ d ∈ dictKeys defs, d ∈ ne.1) :
    (calls.foldl (processCall defs caller scope) ne).1 = ne.1 := by
  induction calls generalizing ne with
  | nil => rfl
  | cons c cs ih =>
      simp only [List.foldl_cons]
      have hp := processCall_nodes defs caller scope ne c hc hk
      have := ih (processCall defs caller scope ne c)
      rw [hp] at this
      exact this hc hk

theorem processCall_edges_sub (defs : List (String × PyStmt))
    (caller scope : String) (ne : List String × List (String × String))
    (call : CallSite) (x : String × String)
    (hx : x ∈ (processCall defs caller scope ne call).2) :
    x ∈ ne.2 ∨ (x.1 = caller ∧ x.2 ∈ dictKeys defs) := by
  rw [processCall_edges] at hx
  rcases hx with hx | ⟨h1, h2⟩
  · exact Or.inl hx
  · refine Or.inr ⟨h1, ?_⟩
    dsimp only at h2
    split at h2
    · simp at h2
    · split at h2
      · exact calleeCandidates_subset defs scope call x.2 h2
      · exact calleeCandidates_subset defs scope call x.2 (List.mem_of_mem_filter h2)

theorem foldl_processCall_edges_sub (defs : List (String × PyStmt))
    (caller scope : String) (calls : List CallSite)
    (ne : List String × List (String × String)) (x : String × String)
    (hx : x ∈ (calls.foldl (processCall defs caller scope) ne).2) :
    x ∈ ne.2 ∨ (x.1 = caller ∧ x.2 ∈ dictKeys defs) := by
  induction calls generalizing ne with
  | nil => exact Or.inl hx
  | cons c cs ih =>
      simp only [List.foldl_cons] at hx
      rcases ih (processCall defs caller scope ne c) hx with h | h
      · exact processCall_edges_sub defs caller scope ne c x h
      · exact Or.inr h

theorem foldl_calls_nodes (defs : List (String × PyStmt))
    (l : List (String × PyStmt)) (ne : List String × List (String × String))
    (hl : ∀ kv ∈ l, kv.1 ∈ ne.1) (hk : ∀ d ∈ dictKeys defs, d ∈ ne.1) :
    (l.foldl (fun ne kv =>
        (allCalls kv.2).foldl (processCall defs kv.1 (dropLastSeg kv.1)) ne) ne).1
      = ne.1 := by
  induction l generalizing ne with
  | nil => rfl
  | cons kv l ih =>
      simp only [List.foldl_cons]
      have h1 := foldl_processCall_nodes defs kv.1 (dropLastSeg kv.1)
        (allCalls kv.2) ne (hl kv (List.mem_cons_self kv l)) hk
      have := ih ((allCalls kv.2).foldl (processCall defs kv.1 (dropLastSeg kv.1)) ne)
      rw [h1] at this
      exact this (fun kv2 h2 => hl kv2 (List.mem_cons_of_mem kv h2)) hk

theorem foldl_calls_edges_sub (defs : List (String × PyStmt))
    (l : List (String × PyStmt)) (ne : List String × List (String × String))
    (x : String × String)
    (hx : x ∈ (l.foldl (fun ne kv =>
        (allCalls kv.2).foldl (processCall defs kv.1 (dropLastSeg kv.1)) ne) ne).2) :
    x ∈ ne.2 ∨ (x.1 ∈ l.map Prod.fst ∧ x.2 ∈ dictKeys defs) := by
  induction l generalizing ne with
  | nil => exact Or.inl hx
  | cons kv l ih =>
      simp only [List.foldl_cons] at hx
      rcases ih _ hx with h | h
      · rcases foldl_processCall_edges_sub defs kv.1 (dropLastSeg kv.1)
          (allCalls kv.2) ne x h with h2 | h2
        · exact Or.inl h2
        · exact Or.inr ⟨by simp [h2.1], h2.2⟩
      · exact Or.inr ⟨List.mem_cons_of_mem _ h.1, h.2⟩

/-- C6: `filtered` keeps exactly the pattern-matching nodes, the edges
with both endpoints surviving, and the metadata of surviving keys; a
pattern matching nothing yields the empty graph. -/
theorem filtered_spec : ∀ (g : CallGraph) (p : String → Bool),
    ((g.filtered p).nodes = g.nodes.filter p)
  ∧ (∀ n, n ∈ (g.filtered p).nodes ↔ n ∈ g.nodes ∧ p n = true)
  ∧ (∀ e, e ∈ (g.filtered p).edges ↔
        e ∈ g.edges ∧ e.1 ∈ (g.filtered p).nodes ∧ e.2 ∈ (g.filtered p).nodes)
  ∧ (∀ kv, kv ∈ (g.filtered p).src ↔ kv ∈ g.src ∧ kv.1 ∈ (g.filtered p).nodes)
  ∧ (∀ kv, kv ∈ (g.filtered p).lines ↔ kv ∈ g.lines ∧ kv.1 ∈ (g.filtered p).nodes)
  ∧ ((∀ n ∈ g.nodes, p n = false) →
      (g.filtered p).nodes = [] ∧ (g.filtered p).edges = []) := by
  intro g p
  refine ⟨rfl, ?_, ?_, ?_, ?_, ?_⟩
  · intro n
    simp [CallGraph.filtered, List.mem_filter]
  · intro e
    simp [CallGraph.filtered, List.mem_filter, and_assoc]
  · intro kv
    simp [CallGraph.filtered, List.mem_filter]
  · intro kv
    simp [CallGraph.filtered, List.mem_filter]
  · intro hnone
    have hn : g.nodes.filter p = [] := by
      rw [List.filter_eq_nil_iff]
      intro a ha
      simp [hnone a ha]
    refine ⟨hn, ?_⟩
    show g.edges.filter _ = []
    rw [List.filter_eq_nil_iff]
    intro e he
    simp only [CallGraph.filtered, hn]
    simp

/-- C9: `label` always renders `"<last segment> @ <file>:<line>"`, with
the `"?"` file and line `1` defaults exactly when the metadata lacks the
node, and is total on arbitrary node strings. -/
theorem label_format : ∀ (g : CallGraph) (node : String),
    (g.label node = lastSegment node ++ " @ " ++ dictGet g.src node "?" ++ ":" ++
      toString (dictGet g.lines node 1))
  ∧ (node ∉ dictKeys g.src → dictGet g.src node "?" = "?")
  ∧ (node ∉ dictKeys g.lines → dictGet g.lines node 1 = 1) := by
  intro g node
  exact ⟨rfl, fun h => dictGet_of_not_mem h "?", fun h => dictGet_of_not_mem h 1⟩

/-- Witness for `label_format` at a node absent from the metadata. -/
theorem label_format_witness :
    dictGet abG.src "nope" "?" = "?" ∧ dictGet abG.lines "nope" 1 = 1 :=
  ⟨(label_format abG "nope").2.1 (by decide), (label_format abG "nope").2.2 (by decide)⟩

/-- C8: a file that fails to parse contributes nothing and does not
abort the build: the graph equals the one built from the other files. -/
theorem parse_failure_skipped :
    ∀ (excl : String → Bool) (files1 files2 : List PyFile) (f : PyFile),
    f.parse = none →
    build_call_graph excl (files1 ++ f :: files2)
      = build_call_graph excl (files1 ++ files2) := by
  intro excl files1 files2 f hf
  unfold build_call_graph discoveredDefs
  have he : fileEntries excl f = [] := by
    unfold fileEntries
    rw [hf]
    split <;> rfl
  rw [List.flatMap_append, List.flatMap_cons, he, List.flatMap_append]
  simp

/-- Witness for `parse_failure_skipped`: dropping the broken file from a
concrete scan leaves the graph unchanged. -/
theorem parse_failure_skipped_witness :
    build_call_graph (fun _ => false) ([abFile] ++ brokenFile :: [])
      = build_call_graph (fun _ => false) ([abFile] ++ []) :=
  parse_failure_skipped (fun _ => false) [abFile] [] brokenFile rfl

/-- Witness for `filtered_spec`: a pattern matching nothing empties a
concrete graph. -/
theorem filtered_spec_witness :
    (abG.filtered (fun _ => false)).nodes = [] ∧
      (abG.filtered (fun _ => false)).edges = [] :=
  (filtered_spec abG (fun _ => false)).2.2.2.2.2 (by decide)

/-- C3: with a non-empty candidate set, the resolver adds one edge from
the caller to every member of the same-package subset when that subset
is non-empty, and otherwise to every candidate. -/
theorem resolver_fanout : ∀ (defs : List (String × PyStmt))
    (caller scope : String) (ne : List String × List (String × String))
    (call : CallSite),
    calleeCandidates defs scope call ≠ [] →
    (((calleeCandidates defs scope call).filter
        (fun c => strStartsWith c scope) ≠ [] →
      ∀ e, e ∈ (processCall defs caller scope ne call).2 ↔
        e ∈ ne.2 ∨ (e.1 = caller ∧ e.2 ∈ (calleeCandidates defs scope call).filter
          (fun c => strStartsWith c scope)))
  ∧ ((calleeCandidates defs scope call).filter
        (fun c => strStartsWith c scope) = [] →
      ∀ e, e ∈ (processCall defs caller scope ne call).2 ↔
        e ∈ ne.2 ∨ (e.1 = caller ∧ e.2 ∈ calleeCandidates defs scope call))) := by
  intro defs caller scope ne call hc
  have h1 : (calleeCandidates defs scope call).isEmpty = false := by
    cases hcc : calleeCandidates defs scope call
    · exact absurd hcc hc
    · rfl
  constructor
  · intro hsp e
    have h2 : ((calleeCandidates defs scope call).filter
        (fun c => strStartsWith c scope)).isEmpty = false := by
      cases hcc : (calleeCandidates defs scope call).filter
          (fun c => strStartsWith c scope)
      · exact absurd hcc hsp
      · rfl
    rw [processCall_edges]
    simp [h1, h2]
  · intro hsp e
    have h2 : ((calleeCandidates defs scope call).filter
        (fun c => strStartsWith c scope)).isEmpty = true := by
      rw [hsp]
      rfl
    rw [processCall_edges]
    simp [h1, h2]

/-- Witness for `resolver_fanout` on the graph of `abFile`. -/
theorem resolver_fanout_witness :
    ("mod.a", "mod.b") ∈ (processCall [("mod.a", PyStmt.nil), ("mod.b", PyStmt.nil)]
      "mod.a" "mod" (["mod.a", "mod.b"], []) (CallSite.bare "b")).2 :=
  ((resolver_fanout [("mod.a", PyStmt.nil), ("mod.b", PyStmt.nil)] "mod.a" "mod"
      (["mod.a", "mod.b"], []) (CallSite.bare "b") (by decide)).1 (by decide)
    ("mod.a", "mod.b")).mpr (Or.inr ⟨rfl, by decide⟩)

/-- C4: an attribute call on `self`/`cls` resolves to the single
same-class name when it exists (one edge, no trailing-name scan), and
otherwise falls back to every definition ending in the attribute. -/
theorem self_attr_resolution : ∀ (defs : List (String × PyStmt))
    (caller recv a : String) (ne : List String × List (String × String)),
    recv = "self" ∨ recv = "cls" →
    ((dropLastSeg caller ++ "." ++ a ∈ dictKeys defs →
        calleeCandidates defs (dropLastSeg caller) (.attr (some recv) a)
          = [dropLastSeg caller ++ "." ++ a]
      ∧ ∀ e, e ∈ (processCall defs caller (dropLastSeg caller) ne
            (.attr (some recv) a)).2 ↔
          e ∈ ne.2 ∨ e = (caller, dropLastSeg caller ++ "." ++ a))
  ∧ (dropLastSeg caller ++ "." ++ a ∉ dictKeys defs →
        calleeCandidates defs (dropLastSeg caller) (.attr (some recv) a)
          = (dictKeys defs).filter (fun d => strEndsWith d ("." ++ a)))) := by
  intro defs caller recv a ne hrecv
  have hg : (some recv = some "self" ∨ some recv = some "cls") := by
    rcases hrecv with h | h
    · exact Or.inl (by rw [h])
    · exact Or.inr (by rw [h])
  constructor
  · intro hmem
    have hcand : calleeCandidates defs (dropLastSeg caller) (.attr (some recv) a)
        = [dropLastSeg caller ++ "." ++ a] := by
      simp only [calleeCandidates]
      rw [if_pos ⟨hg, hmem⟩]
    refine ⟨hcand, ?_⟩
    intro e
    unfold processCall
    dsimp only
    rw [hcand]
    have : ([dropLastSeg caller ++ "." ++ a] : List String).isEmpty = false := rfl
    rw [if_neg (by simp)]
    by_cases hsw : strStartsWith (dropLastSeg caller ++ "." ++ a) (dropLastSeg caller)
    · rw [show ([dropLastSeg caller ++ "." ++ a].filter
          (fun c => strStartsWith c (dropLastSeg caller)))
          = [dropLastSeg caller ++ "." ++ a] by simp [List.filter, hsw]]
      rw [if_neg (by simp)]
      rw [mem_foldl_addEdge]
      constructor
      · rintro (h | ⟨h1, h2⟩)
        · exact Or.inl h
        · simp only [List.mem_singleton] at h2
          refine Or.inr ?_
          cases e
          simp only at h1 h2
          rw [h1, h2]
      · rintro (h | rfl)
        · exact Or.inl h
        · exact Or.inr ⟨rfl, by simp⟩
    · rw [show ([dropLastSeg caller ++ "." ++ a].filter
          (fun c => strStartsWith c (dropLastSeg caller))) = [] by
            simp [List.filter, hsw]]
      rw [if_pos List.isEmpty_nil]
      rw [mem_foldl_addEdge]
      constructor
      · rintro (h | ⟨h1, h2⟩)
        · exact Or.inl h
        · simp only [List.mem_singleton] at h2
          refine Or.inr ?_
          cases e
          simp only at h1 h2
          rw [h1, h2]
      · rintro (h | rfl)
        · exact Or.inl h
        · exact Or.inr ⟨rfl, by simp⟩
  · intro hmem
    simp only [calleeCandidates]
    rw [if_neg (fun hc => hmem hc.2)]

/-- Witness for `self_attr_resolution`: `self.m2()` inside `m.Foo.m1`
resolves to exactly `m.Foo.m2`. -/
theorem self_attr_resolution_witness :
    calleeCandidates [("m.Foo.m1", PyStmt.nil), ("m.Foo.m2", PyStmt.nil)]
        (dropLastSeg "m.Foo.m1") (.attr (some "self") "m2") = ["m.Foo.m2"] := by
  have h := (self_attr_resolution [("m.Foo.m1", PyStmt.nil), ("m.Foo.m2", PyStmt.nil)]
    "m.Foo.m1" "self" "m2" ([], []) (Or.inl rfl)).1 (by decide)
  exact h.1.trans (by decide)

/-- C5: the printer exits (with the not-found message naming the target,
or the ambiguous list of all matches) exactly when the target matches
zero, respectively several, nodes; a unique match proceeds to printing.
A node matches when it equals the target or ends with `"." + target`. -/
theorem target_resolution : ∀ (g : CallGraph) (target : String) (fuel : Nat),
    (targetMatches g target = [] →
      print_caller_tree g target fuel = .exitNotFound target)
  ∧ (2 ≤ (targetMatches g target).length →
      print_caller_tree g target fuel = .exitAmbiguous (targetMatches g target))
  ∧ ((targetMatches g target).length = 1 →
      (∃ ls, print_caller_tree g target fuel = .output ls) ∨
        print_caller_tree g target fuel = .outOfFuel)
  ∧ (∀ m, print_caller_tree g target fuel = .exitNotFound m →
      targetMatches g target = [])
  ∧ (∀ l, print_caller_tree g target fuel = .exitAmbiguous l →
      2 ≤ (targetMatches g target).length)
  ∧ (∀ n, n ∈ targetMatches g target ↔
      n ∈ g.nodes ∧ (strEndsWith n ("." ++ target) || n == target) = true) := by
  intro g target fuel
  rcases hm : targetMatches g target with _ | ⟨t1, _ | ⟨t2, rest⟩⟩
  · refine ⟨fun _ => ?_, fun h => ?_, fun h => ?_, fun m _ => rfl, fun l hl => ?_, ?_⟩
    · unfold print_caller_tree
      rw [hm]
    · simp at h
    · simp at h
    · unfold print_caller_tree at hl
      rw [hm] at hl
      simp at hl
    · intro n
      rw [← hm]
      simp [targetMatches, List.mem_filter]
  · have hres : print_caller_tree g target fuel
        = match renderRoots g (ancestorsOf g t1) (rootsOf g (ancestorsOf g t1)) fuel with
          | none => PrintResult.outOfFuel
          | some ls => PrintResult.output ls := by
      unfold print_caller_tree
      rw [hm]
    refine ⟨fun h => ?_, fun h => ?_, fun _ => ?_, fun m hm2 => ?_, fun l hl => ?_, ?_⟩
    · simp at h
    · simp at h
    · rw [hres]
      cases renderRoots g (ancestorsOf g t1) (rootsOf g (ancestorsOf g t1)) fuel with
      | none => exact Or.inr rfl
      | some ls => exact Or.inl ⟨ls, rfl⟩
    · rcases hr : renderRoots g (ancestorsOf g t1) (rootsOf g (ancestorsOf g t1)) fuel with _ | ls
      · rw [hr] at hres
        rw [hres] at hm2
        simp at hm2
      · rw [hr] at hres
        rw [hres] at hm2
        simp at hm2
    · rcases hr : renderRoots g (ancestorsOf g t1) (rootsOf g (ancestorsOf g t1)) fuel with _ | ls
      · rw [hr] at hres
        rw [hres] at hl
        simp at hl
      · rw [hr] at hres
        rw [hres] at hl
        simp at hl
    · intro n
      rw [← hm]
      simp [targetMatches, List.mem_filter]
  · have hres : print_caller_tree g target fuel = .exitAmbiguous (t1 :: t2 :: rest) := by
      unfold print_caller_tree
      rw [hm]
    refine ⟨fun h => ?_, fun _ => hres, fun h => ?_, fun m hm2 => ?_, fun l hl => ?_, ?_⟩
    · simp at h
    · simp at h
    · rw [hres] at hm2
      simp at hm2
    · simp
    · intro n
      rw [← hm]
      simp [targetMatches, List.mem_filter]

/-- Witness for `target_resolution`: a missing target exits not-found on
a concrete graph, and the ambiguous two-file scenario exits with both
matches listed. -/
theorem target_resolution_witness :
    print_caller_tree abG "zzz" 3 = .exitNotFound "zzz" :=
  (target_resolution abG "zzz" 3).1 (by decide)

/-- Helper: the nodes of `buildFrom` are those of the collection pass. -/
theorem buildFrom_nodes_eq (entries : List DefEntry) :
    (buildFrom entries).nodes = (entries.foldl addDef ⟨[], [], [], []⟩).nodes := by
  have hl : lockstep (entries.foldl addDef ⟨[], [], [], []⟩) :=
    foldl_addDef_lockstep entries ⟨rfl, rfl, rfl⟩
  unfold buildFrom
  dsimp only
  apply foldl_calls_nodes
  · intro kv hkv
    have : kv.1 ∈ dictKeys (entries.foldl addDef ⟨[], [], [], []⟩).defs :=
      List.mem_map_of_mem Prod.fst hkv
    rw [hl.1] at this
    exact this
  · intro d hd
    rw [hl.1] at hd
    exact hd

/-- Helper: `buildFrom`'s metadata maps are those of the collection pass. -/
theorem buildFrom_src_eq (entries : List DefEntry) :
    (buildFrom entries).src = (entries.foldl addDef ⟨[], [], [], []⟩).srcMap := rfl

theorem buildFrom_lines_eq (entries : List DefEntry) :
    (buildFrom entries).lines = (entries.foldl addDef ⟨[], [], [], []⟩).lineMap := rfl

/-- C7: in every built graph both endpoints of every edge are nodes, and
the node set is exactly the set of discovered definitions. -/
theorem graph_closed : ∀ (excl : String → Bool) (files : List PyFile),
    (∀ e, e ∈ (build_call_graph excl files).edges →
        e.1 ∈ (build_call_graph excl files).nodes ∧
          e.2 ∈ (build_call_graph excl files).nodes)
  ∧ (∀ q, q ∈ (build_call_graph excl files).nodes ↔
        q ∈ (discoveredDefs excl files).map DefEntry.q) := by
  intro excl files
  have hl : lockstep ((discoveredDefs excl files).foldl addDef ⟨[], [], [], []⟩) :=
    foldl_addDef_lockstep _ ⟨rfl, rfl, rfl⟩
  constructor
  · intro e he
    have hg : (build_call_graph excl files).edges
        = (((discoveredDefs excl files).foldl addDef ⟨[], [], [], []⟩).defs.foldl
            (fun ne kv => (allCalls kv.2).foldl
              (processCall ((discoveredDefs excl files).foldl addDef ⟨[], [], [], []⟩).defs
                kv.1 (dropLastSeg kv.1)) ne)
            (((discoveredDefs excl files).foldl addDef ⟨[], [], [], []⟩).nodes, [])).2 := rfl
    rw [hg] at he
    rcases foldl_calls_edges_sub _ _ _ e he with h | ⟨h1, h2⟩
    · simp at h
    · rw [build_call_graph, buildFrom_nodes_eq]
      constructor
      · rw [← hl.1]
        exact h1
      · rw [← hl.1]
        exact h2
  · intro q
    rw [build_call_graph, buildFrom_nodes_eq, mem_foldl_addDef_nodes]
    simp

/-- Witness for `graph_closed`: a concrete edge of `abG` has both
endpoints among the nodes. -/
theorem graph_closed_witness :
    ("mod.a", "mod.b").1 ∈ (build_call_graph (fun _ => false) [abFile]).nodes ∧
      ("mod.a", "mod.b").2 ∈ (build_call_graph (fun _ => false) [abFile]).nodes :=
  (graph_closed (fun _ => false) [abFile]).1 ("mod.a", "mod.b") (by decide)

/-- Helper: the key set of a metadata map restricted by `filtered`
matches the filtered node set, provided it matched the original one. -/
theorem filtered_keys {α : Type} (g : CallGraph) (p : String → Bool)
    (m : List (String × α)) (hk : ∀ x, x ∈ dictKeys m ↔ x ∈ g.nodes) :
    ∀ n, n ∈ dictKeys (m.filter (fun kv => decide (kv.1 ∈ g.nodes.filter p))) ↔
      n ∈ g.nodes.filter p := by
  intro n
  simp only [dictKeys, List.mem_map, List.mem_filter, decide_eq_true_eq]
  constructor
  · rintro ⟨kv, ⟨_, hin⟩, rfl⟩
    exact hin
  · intro hn
    have : n ∈ dictKeys m := (hk n).mpr hn.1
    simp only [dictKeys, List.mem_map] at this
    obtain ⟨kv, hkv, rfl⟩ := this
    exact ⟨kv, ⟨hkv, hn⟩, rfl⟩

/-- Helper: key sets of the built graph's metadata maps are its nodes. -/
theorem build_metadata_keys (excl : String → Bool) (files : List PyFile) :
    dictKeys (build_call_graph excl files).src = (build_call_graph excl files).nodes
  ∧ dictKeys (build_call_graph excl files).lines = (build_call_graph excl files).nodes := by
  have hl : lockstep ((discoveredDefs excl files).foldl addDef ⟨[], [], [], []⟩) :=
    foldl_addDef_lockstep _ ⟨rfl, rfl, rfl⟩
  constructor
  · rw [build_call_graph, buildFrom_src_eq, buildFrom_nodes_eq]
    exact hl.2.1
  · rw [build_call_graph, buildFrom_lines_eq, buildFrom_nodes_eq]
    exact hl.2.2

/-- C10: in every built graph the `src` and `lines` key sets are exactly
the node set, `filtered` preserves this, and on any node of such a graph
`label` reads a stored file and line (the `"?"`/line-1 fallback is never
consulted). -/
theorem metadata_lockstep : ∀ (excl : String → Bool) (files : List PyFile)
    (p : String → Bool) (n : String),
    (n ∈ dictKeys (build_call_graph excl files).src ↔
        n ∈ (build_call_graph excl files).nodes)
  ∧ (n ∈ dictKeys (build_call_graph excl files).lines ↔
        n ∈ (build_call_graph excl files).nodes)
  ∧ (n ∈ dictKeys ((build_call_graph excl files).filtered p).src ↔
        n ∈ ((build_call_graph excl files).filtered p).nodes)
  ∧ (n ∈ dictKeys ((build_call_graph excl files).filtered p).lines ↔
        n ∈ ((build_call_graph excl files).filtered p).nodes)
  ∧ (n ∈ (build_call_graph excl files).nodes →
      ∃ f, (n, f) ∈ (build_call_graph excl files).src ∧
        dictGet (build_call_graph excl files).src n "?" = f)
  ∧ (n ∈ (build_call_graph excl files).nodes →
      ∃ l, (n, l) ∈ (build_call_graph excl files).lines ∧
        dictGet (build_call_graph excl files).lines n 1 = l) := by
  intro excl files p n
  obtain ⟨hsrc, hlin⟩ := build_metadata_keys excl files
  refine ⟨by rw [hsrc], by rw [hlin],
    filtered_keys (build_call_graph excl files) p _ (fun x => by rw [hsrc]) n,
    filtered_keys (build_call_graph excl files) p _ (fun x => by rw [hlin]) n,
    fun hn => dictGet_mem (by rw [hsrc]; exact hn) "?",
    fun hn => dictGet_mem (by rw [hlin]; exact hn) 1⟩

/-- Witness for `metadata_lockstep`: the node `mod.a` of a concrete
graph has its recorded file and line available to `label`. -/
theorem metadata_lockstep_witness :
    (∃ f, ("mod.a", f) ∈ (build_call_graph (fun _ => false) [abFile]).src ∧
      dictGet (build_call_graph (fun _ => false) [abFile]).src "mod.a" "?" = f) ∧
    (∃ l, ("mod.a", l) ∈ (build_call_graph (fun _ => false) [abFile]).lines ∧
      dictGet (build_call_graph (fun _ => false) [abFile]).lines "mod.a" 1 = l) :=
  ⟨(metadata_lockstep (fun _ => false) [abFile] (fun _ => true) "mod.a").2.2.2.2.1
      (by decide),
   (metadata_lockstep (fun _ => false) [abFile] (fun _ => true) "mod.a").2.2.2.2.2
      (by decide)⟩

/-- C2, counterexample: `def inner` nested in `def outer` of module `m`
is registered as `m.inner`; the name `m.outer.inner` demanded by the
claim is not a node. -/
theorem nested_def_qualname_cex :
    (build_call_graph (fun _ => false) [nestFile]).nodes = ["m.outer", "m.inner"]
  ∧ "m.outer.inner" ∉ (build_call_graph (fun _ => false) [nestFile]).nodes := by
  constructor
  · decide
  · decide

/-- C2, amended: a function nested in another function's body is
discovered as a separate definition, but the enclosing function
contributes no segment: the nested definition's qualified name is the
module plus the class-nesting stack plus its own name, exactly as if it
appeared at the enclosing function's own scope level. -/
theorem nested_def_flat_qualname : ∀ (module path : String) (cls : List String)
    (oname : String) (oln : Nat) (ocalls : List CallSite) (b1 b2 : PyStmt)
    (iname : String) (iln : Nat) (icalls : List CallSite) (ibody : PyStmt),
    (collectStmt module path cls
        (.funcDef oname oln ocalls
          (.seq b1 (.seq (.funcDef iname iln icalls ibody) b2)))).map DefEntry.q
      = (module ++ "." ++ joinSep "." (cls ++ [oname]))
        :: ((collectStmt module path cls b1).map DefEntry.q
            ++ (module ++ "." ++ joinSep "." (cls ++ [iname]))
            :: ((collectStmt module path cls ibody).map DefEntry.q
                ++ (collectStmt module path cls b2).map DefEntry.q)) := by
  intro module path cls oname oln ocalls b1 b2 iname iln icalls ibody
  simp [collectStmt, List.map_append]

/-- Helper: once the renderer is inside a set of nodes each of which has
a nonempty child list staying in the set, no amount of fuel completes
the walk — the embedded recursion has no fixed depth bound, i.e. the
source `walk` descends forever. -/
theorem walkF_trapped (g : CallGraph) (anc : List String) (S : List String)
    (hS : ∀ n ∈ S, kidsOf g anc n ≠ [] ∧ ∀ k ∈ kidsOf g anc n, k ∈ S) :
    ∀ fuel n, n ∈ S → ∀ pre last, walkF g anc fuel n pre last = none := by
  intro fuel
  induction fuel with
  | zero => intro n _ pre last; rfl
  | succ f ih =>
      intro n hn pre last
      obtain ⟨hne, hsub⟩ := hS n hn
      cases hk : kidsOf g anc n with
      | nil => exact absurd hk hne
      | cons k ks =>
          have hkS : k ∈ S := hsub k (by rw [hk]; exact List.mem_cons_self k ks)
          simp only [walkF, hk, List.enum, List.enumFrom, List.map_cons]
          rw [ih k hkS]
          rfl

/-- Helper: a node whose children all lie in a trapped set also never
completes, whatever the fuel. -/
theorem walkF_trapped_entry (g : CallGraph) (anc : List String) (S : List String)
    (hS : ∀ n ∈ S, kidsOf g anc n ≠ [] ∧ ∀ k ∈ kidsOf g anc n, k ∈ S)
    (n : String) (hne : kidsOf g anc n ≠ [])
    (hsub : ∀ k ∈ kidsOf g anc n, k ∈ S) :
    ∀ fuel pre last, walkF g anc fuel n pre last = none := by
  intro fuel
  cases fuel with
  | zero => intro pre last; rfl
  | succ f =>
      intro pre last
      cases hk : kidsOf g anc n with
      | nil => exact absurd hk hne
      | cons k ks =>
          have hkS : k ∈ S := hsub k (by rw [hk]; exact List.mem_cons_self k ks)
          simp only [walkF, hk, List.enum, List.enumFrom, List.map_cons]
          rw [walkF_trapped g anc S hS f k hkS]
          rfl

/-- C1 fails on the code: in `cycFile` the mutually recursive pair
`m.a`/`m.b` is reached from the entry `m.c`, the ancestor set of the
target `m.b` contains the cycle, and `print_caller_tree` runs out of
every fuel bound — the source `walk`, which carries no visited set and
no depth cap, recurses forever on this input instead of producing a
finite rendering. -/
theorem walk_cycle_unbounded :
    cycAnc = ["m.c", "m.a", "m.b"]
  ∧ ("m.a", "m.b") ∈ cycG.edges ∧ ("m.b", "m.a") ∈ cycG.edges
  ∧ ∀ fuel, print_caller_tree cycG "b" fuel = .outOfFuel := by
  refine ⟨by decide, by decide, by decide, ?_⟩
  have hS : ∀ n ∈ ["m.a", "m.b"], kidsOf cycG cycAnc n ≠ [] ∧
      ∀ k ∈ kidsOf cycG cycAnc n, k ∈ ["m.a", "m.b"] := by decide
  intro fuel
  have hrender : renderRoots cycG cycAnc (rootsOf cycG cycAnc) fuel = none := by
    have hroots : rootsOf cycG cycAnc = ["m.c"] := by decide
    rw [hroots]
    unfold renderRoots
    simp only [List.enum, List.enumFrom, List.map_cons, List.map_nil]
    rw [walkF_trapped_entry cycG cycAnc ["m.a", "m.b"] hS "m.c" (by decide) (by decide)]
    rfl
  calc print_caller_tree cycG "b" fuel
      = (match renderRoots cycG cycAnc (rootsOf cycG cycAnc) fuel with
         | none => PrintResult.outOfFuel
         | some ls => PrintResult.output ls) := rfl
    _ = PrintResult.outOfFuel := by rw [hrender]
